import Mathlib

set_option maxHeartbeats 1000000
set_option maxRecDepth 8000

/- Verification development for the nunjucks-loader dependency and asset
   pipeline: a shallow embedding of src/precompile/with-dependencies.js,
   of the template-dependency collector and of the asset-path rewriter,
   together with proofs of the specified properties.

   JavaScript strings are embedded as Lean String (with List Char used
   inside the text-rewriting engine), thrown TypeError/Error values as
   Except.error, and undefined-producing functions as Option results. -/

/-- Nunjucks expression nodes relevant to asset-value extraction: binary
concatenation (Add), string literals, symbols, function calls (with a
callee-name node and the argument list node.args.children), and a
catch-all constructor standing for every other node kind. -/
inductive NjNode where
  | add (left right : NjNode)
  | literal (value : String)
  | symbol (value : String)
  | funCall (name : NjNode) (args : List NjNode)
  | other

/-- The mapping applied to node.left and node.right inside getAddNodeValue
(src/src/precompile/with-dependencies.js lines 86-100).  A nested Add node
re-enters getAddNodeValue, whose body on an Add node is exactly this map
over its own two children joined with " + ", so the Add case is written
directly as that recursion; a Literal yields its value wrapped in double
quotes; a Symbol yields its bare value; anything else throws
TypeError("Unsupported node signature"), modelled as Except.error. -/
def addFragment : NjNode → Except String String
  | .add l r => do
      let lv ← addFragment l
      let rv ← addFragment r
      pure (lv ++ " + " ++ rv)
  | .literal v => pure ("\"" ++ v ++ "\"")
  | .symbol v => pure v
  | .funCall _ _ => .error "TypeError: Unsupported node signature"
  | .other => .error "TypeError: Unsupported node signature"

/-- getAddNodeValue (lines 81-101): a non-Add argument throws
TypeError("Wrong node type"); on an Add node the function maps
addFragment over [node.left, node.right] and joins the two results
with " + " (Array.prototype.join over exactly two elements). -/
def getAddNodeValue : NjNode → Except String String
  | .add l r => do
      let lv ← addFragment l
      let rv ← addFragment r
      pure (lv ++ " + " ++ rv)
  | _ => .error "TypeError: Wrong node type"

/-- The .value property of a node as JavaScript reads it: Literal and
Symbol nodes carry a string value, every other node yields undefined. -/
def njValueProp : NjNode → Option String
  | .literal v => some v
  | .symbol v => some v
  | _ => none

/-- getGlobalFnValue (lines 103-115).  When node.name.value is not the
string "static" the function returns undefined (ok none).  Otherwise it
destructures the first element of node.args.children: with an empty
argument list that element is undefined and the later asset.value access
throws a TypeError; a first argument that is an Add node is rendered with
getAddNodeValue; any other first argument contributes its .value property
(undefined, i.e. none, when the node kind has no value).  A non-FunCall
argument would read .value of the missing name node, also a TypeError. -/
def getGlobalFnValue : NjNode → Except String (Option String)
  | .funCall nameNode args =>
      if njValueProp nameNode ≠ some "static" then pure none
      else
        match args with
        | [] => .error "TypeError: Cannot read properties of undefined"
        | a :: _ =>
            match a with
            | .add l r => (getAddNodeValue (.add l r)).map some
            | n => pure (njValueProp n)
  | _ => .error "TypeError: Cannot read properties of undefined"

/-- The concatenation chain inspected by getAddNodeValue: the node itself
and, recursively through Add nodes only, their children.  getAddNodeValue
never descends into non-Add nodes, so they are chain endpoints. -/
def addChain : NjNode → List NjNode
  | .add l r => NjNode.add l r :: (addChain l ++ addChain r)
  | n => [n]

/-- The leaves of a concatenation tree: endpoints of the chain reached
through Add nodes. -/
def leaves : NjNode → List NjNode
  | .add l r => leaves l ++ leaves r
  | n => [n]

/-- A node kind getAddNodeValue accepts inside a chain: a concatenation, a
string literal or a symbol. -/
def goodFragmentNode : NjNode → Bool
  | .add _ _ => true
  | .literal _ => true
  | .symbol _ => true
  | _ => false

/-- Textual form of one flattened fragment as the specification words it:
a literal fragment is wrapped in double quotes, a symbol fragment is left
unquoted.  Other node kinds never occur among good leaves. -/
def fragmentText : NjNode → String
  | .literal v => "\"" ++ v ++ "\""
  | .symbol v => v
  | _ => ""

/-- Joining an ordered fragment sequence with " + ", as the specification
words it. -/
def joinPlusList : List String → String
  | [] => ""
  | [x] => x
  | x :: y :: xs => x ++ " + " ++ joinPlusList (y :: xs)

/-- Rendering of a concatenation tree as the specification words it:
flatten into ordered fragments and join their texts with " + ". -/
def specFlattenRender (n : NjNode) : String :=
  joinPlusList ((leaves n).map fragmentText)

/-- Whether an Except-modelled computation succeeded. -/
def exceptIsOk : Except String String → Bool
  | .ok _ => true
  | .error _ => false

/-- Whether a node is an Add (concatenation) node. -/
def isAddNode : NjNode → Bool
  | .add _ _ => true
  | _ => false

/- Template-dependency collection (src/unnamed/part_000, getDependencies).
   The parsed template is embedded as its document-ordered node list; each
   node carries its directive kind and, for directive nodes, the literal
   string node.template.value.  nunjucks Root.findAll(Type) returns the
   nodes of one type in traversal (document) order, embedded as filter. -/

/-- Directive kind of a top-level template node. -/
inductive DirKind where
  | kExtends
  | kInclude
  | kImport
  | kFromImport
  | kOther
  deriving DecidableEq

/-- One node of a parsed template, in document order: its directive kind
and the literal template-name string node.template.value. -/
structure TplNode where
  kind : DirKind
  template : String
  deriving DecidableEq

/-- nunjucks nodes.findAll(Type): all nodes of one kind, document order. -/
def findAll (k : DirKind) (nodes : List TplNode) : List TplNode :=
  nodes.filter (fun n => n.kind == k)

/-- getDependencies (src/unnamed/part_000 lines 3-16): concatenates the
findAll results for Extends, Include, Import and FromImport, in that fixed
order, then maps each node to node.template.value. -/
def getDependencies (nodes : List TplNode) : List String :=
  (findAll .kExtends nodes ++ findAll .kInclude nodes ++
    findAll .kImport nodes ++ findAll .kFromImport nodes).map
      (fun n => n.template)

/-- Whether a node is one of the four inclusion directives. -/
def isInclusionDir (n : TplNode) : Bool :=
  n.kind == .kExtends || n.kind == .kInclude ||
    n.kind == .kImport || n.kind == .kFromImport

/-- The specification's wording of inclusion-reference extraction: the
template names of all extends/include/import/from-import occurrences in
document order, duplicates preserved. -/
def specDocOrderDeps (nodes : List TplNode) : List String :=
  (nodes.filter isInclusionDir).map (fun n => n.template)

/- Asset deduplication (src/src/precompile/with-dependencies.js,
   lines 117-126): the extracted asset path texts are filtered with
   isUnique before resolution.  Array.prototype.filter passes
   (item, index, wholeArray) to its callback; that indexed traversal is
   embedded as jsFilterIdx below. -/

/-- isUnique (lines 117-119): list.indexOf(item) === i. -/
def isUnique (item : String) (i : Nat) (list : List String) : Bool :=
  list.indexOf item == i

/-- Array.prototype.filter with an index-aware callback: walks the array
carrying the element index. -/
def jsFilterIdx (pred : String → Nat → Bool) : List String → Nat → List String
  | [], _ => []
  | a :: rest, i =>
      if pred a i then a :: jsFilterIdx pred rest (i + 1)
      else jsFilterIdx pred rest (i + 1)

/-- The dedup stage of getAssets (line 126): assets.filter(isUnique),
keeping exactly the elements that sit at the index of their own first
occurrence.  The result is the asset list handed to path resolution. -/
def assetsDedup (values : List String) : List String :=
  jsFilterIdx (fun a i => isUnique a i values) values 0

/-- The specification's wording of deduplication: keep the first
occurrence of each distinct path text, drop later duplicates. -/
def specDedupKeepFirst : List String → List String
  | [] => []
  | a :: l => a :: specDedupKeepFirst (l.filter (fun b => !(b == a)))
termination_by l => l.length
decreasing_by
  simp only [List.length_cons]
  exact Nat.lt_succ_of_le (List.length_filter_le _ _)

/- Extension-usage extraction (with-dependencies.js lines 182-187).
   getUsagesOf itself lives in src/precompile/get-usages-of.js, which is
   not part of the given sources. -/

/-- A custom-tag call site's extension identity: nunjucks CallExtension
nodes carry extName, which is sometimes the registered extension name and
sometimes the live extension instance itself.  Live instances are embedded
as opaque numeric handles compared by identity. -/
inductive ExtRef where
  | byName (s : String)
  | byInstance (id : Nat)
  deriving DecidableEq

/-- A declared addon descriptor as produced by getAddonsMeta: the declared
name, the originating module path and the live instance handle (the
JavaScript triple [name, importPath, instance]). -/
structure ExtDescriptor where
  name : String
  path : String
  instId : Nat
  deriving DecidableEq

/-- Modelled from the spec: getUsagesOf (src/precompile/get-usages-of.js
is absent from the given sources; spec section 4.2, "for a given node
type, traverse all nodes of that type, and for each declared candidate
item, test a provided predicate against each found node; retain the
candidate if any match exists ... order = declared order").  found is the
list of nodes of the requested type, cands the declared candidates. -/
def getUsagesOf (found : List α) (cands : List β) (pred : α → β → Bool) :
    List β :=
  cands.filter (fun c => found.any (fun n => pred n c))

/-- The call-site predicate of lines 183-186: name === extName ||
instance === extName.  A strict-equality comparison of a string against an
instance (or an instance against a string) is false, so exactly the
component matching extName's kind is compared. -/
def extSiteMatches (extName : ExtRef) (d : ExtDescriptor) : Bool :=
  match extName with
  | .byName s => d.name == s
  | .byInstance i => d.instId == i

/-- The extensions entry of the manifest (lines 182-187): the declared
descriptors filtered to those some CallExtension node references. -/
def extensionsUsages (callSites : List ExtRef) (decls : List ExtDescriptor) :
    List ExtDescriptor :=
  getUsagesOf callSites decls extSiteMatches

/- Path resolution failure messages (with-dependencies.js lines 50-56 and
   128-134).  getFirstExistedPath lives in src/get-first-existed-path.js,
   absent from the given sources; the filesystem probe is abstracted as a
   Boolean existence predicate. -/

/-- Modelled from the spec: getFirstExistedPath (spec section 4.3, "tries
each candidate for existence in order; succeeds with the first that
exists; fails with NotFoundError if none exist"), with the asynchronous
probe abstracted into the predicate fsExists. -/
def getFirstExistedPath (fsExists : String → Bool) (paths : List String) :
    Option String :=
  paths.find? fsExists

/-- Resolution of one template reference (lines 50-56): the pair
(originalName, resolvedPath) on success, and on failure the rejection is
replaced by Error(`Template "name" not found`). -/
def resolveTemplateDep (fsExists : String → Bool)
    (dep : String × List String) : Except String (String × String) :=
  match getFirstExistedPath fsExists dep.2 with
  | some p => .ok (dep.1, p)
  | none => .error ("Template \"" ++ dep.1 ++ "\" not found")

/-- Resolution of one asset reference (lines 128-134): as for templates,
but the failure message names an Asset. -/
def resolveAssetDep (fsExists : String → Bool)
    (dep : String × List String) : Except String (String × String) :=
  match getFirstExistedPath fsExists dep.2 with
  | some p => .ok (dep.1, p)
  | none => .error ("Asset \"" ++ dep.1 ++ "\" not found")

/- Asset-path rewriting (src/unnamed/part_001).  getAssetReplaceRegExp
   splits toRegExpSource(path) on ' \+ ' and keeps quoted fragments
   verbatim while every other fragment becomes the capture ([^+]+); the
   resulting source is compiled with the g flag and fed to
   String.prototype.replace with a callback.

   toRegExpSource (src/to-regexp-source.js) and isDynamicPath/getArgs
   (src/precompile/assets.js) are absent from the given sources and are
   modelled from the spec where noted.  Because toRegExpSource escapes
   regex metacharacters (so that, per spec section 4.6, "literal fragments
   match verbatim"), splitting the escaped source on ' \+ ' splits at
   exactly the positions where the raw path contains ' + ', and an escaped
   literal fragment matches its raw text verbatim; the pattern is
   therefore embedded at the fragment level over raw text: a RePart.lit
   matches its characters verbatim, a RePart.wild is the group ([^+]+).
   Matching such a pattern in JavaScript is deterministic: a greedy
   ([^+]+) can only end right before the first '+' of the remaining text,
   and when followed by ' \+ ' it backs off exactly one character (which
   must then be a space), since no shorter capture can place the literal
   '+' of the separator on a '+' character of the text. -/

/-- Splitting a character list on the three-character separator " + ",
leftmost-first, as String.prototype.split(' \+ ') does on the escaped
regex source (equivalently, split(' + ') on the raw path). -/
def splitSep : List Char → List (List Char)
  | [] => [[]]
  | ' ' :: '+' :: ' ' :: rest => [] :: splitSep rest
  | c :: rest =>
      match splitSep rest with
      | [] => [[c]]
      | f :: fs => (c :: f) :: fs

/-- One fragment of the replacement pattern of getAssetReplaceRegExp
(src/unnamed/part_001 lines 5-18): a verbatim literal piece, or the
one-argument wildcard capture ([^+]+). -/
inductive RePart where
  | lit (s : List Char)
  | wild
  deriving DecidableEq

/-- Modelled from the spec: isDynamicPath (src/precompile/assets.js is
absent).  A dynamic asset path is a rendered concatenation expression,
i.e. it splits into more than one fragment on " + " (spec section 3,
"ordered sequence of literal fragments and variable placeholders joined
by concatenation"). -/
def isDynamicPath (path : String) : Bool :=
  (splitSep path.data).length != 1

/-- Modelled from the spec: getArgs (src/precompile/assets.js is absent).
The dynamic arguments of an asset path are its variable placeholders: the
fragments not wrapped in double quotes (spec sections 3 and 4.6).  A
static path has none. -/
def getArgs (path : String) : List (List Char) :=
  if isDynamicPath path then
    (splitSep path.data).filter (fun f => !(f.head? == some '"'))
  else []

/-- The pattern of getAssetReplaceRegExp (lines 5-18): for a dynamic path
each fragment starting with a double quote stays a verbatim literal and
every other fragment becomes the wildcard; a static path becomes the one
verbatim literal "path" (the path wrapped in double quotes). -/
def getAssetReplaceParts (path : String) : List RePart :=
  if isDynamicPath path then
    (splitSep path.data).map
      (fun f => if f.head? == some '"' then RePart.lit f else RePart.wild)
  else [RePart.lit ('"' :: path.data ++ ['"'])]

/-- Removing a verbatim sequence from the front of a text, or failing. -/
def stripPfx : List Char → List Char → Option (List Char)
  | [], text => some text
  | _ :: _, [] => none
  | c :: cs, d :: ds => if c == d then stripPfx cs ds else none

/-- Matching the fragment pattern (fragments joined by the separator
' \+ ') at the start of a text: returns the wildcard captures in order
and the unconsumed rest.  A wildcard in final position captures the
maximal nonempty run of non-'+' characters; a wildcard followed by the
separator captures that run minus its final character, which must be the
space of the separator, followed by '+' and another space (the only
backtracking JavaScript's greedy ([^+]+) can perform here, see above). -/
def matchParts : List RePart → List Char → Option (List (List Char) × List Char)
  | [], text => some ([], text)
  | [.lit s], text => (stripPfx s text).map (fun r => (([] : List (List Char)), r))
  | .lit s :: p :: ps, text =>
      match stripPfx s text with
      | some r1 =>
          match stripPfx [' ', '+', ' '] r1 with
          | some r2 => matchParts (p :: ps) r2
          | none => none
      | none => none
  | [.wild], text =>
      match text.takeWhile (fun c => c != '+') with
      | [] => none
      | c :: run => some ([c :: run], text.dropWhile (fun c => c != '+'))
  | .wild :: p :: ps, text =>
      match text.dropWhile (fun c => c != '+'),
          (text.takeWhile (fun c => c != '+')).reverse with
      | '+' :: ' ' :: rest2, ' ' :: c :: capRev =>
          (matchParts (p :: ps) rest2).map
            (fun pr => ((c :: capRev).reverse :: pr.1, pr.2))
      | _, _ => none

/-- Whether the pattern matches at some position of the text. -/
def hasMatch (parts : List RePart) : List Char → Bool
  | [] => (matchParts parts []).isSome
  | c :: rest => (matchParts parts (c :: rest)).isSome || hasMatch parts rest

/-- The apostrophe character (U+0027). -/
def apos : Char := Char.ofNat 39

/-- The runtime-table lookup text _templateAssets['uuid']. -/
def lookupChars (uuid : List Char) : List Char :=
  "_templateAssets[".data ++ apos :: uuid ++ [apos, ']']

/-- Array.prototype.join() with its default "," separator. -/
def joinComma : List (List Char) → List Char
  | [] => []
  | [x] => x
  | x :: y :: xs => x ++ ',' :: joinComma (y :: xs)

/-- Decimal rendering of a number, as JavaScript stringifies the match
offset when it is joined into the replacement. -/
def natToCharsGo : Nat → Nat → List Char
  | 0, _ => []
  | fuel + 1, n =>
      if n < 10 then [Char.ofNat (48 + n)]
      else natToCharsGo fuel (n / 10) ++ [Char.ofNat (48 + n % 10)]

/-- Decimal rendering entry point. -/
def natToChars (n : Nat) : List Char :=
  natToCharsGo (n + 1) n

/-- The replace callback of replaceAssetPath (lines 26-30): its rest
parameter args holds the capture groups followed by the match offset and
the whole string; args.slice(0, argsCount) keeps the first argsCount
entries, and the result is [lookup, ...staticArgs].join(). -/
def jsCallback (uuid : List Char) (argsCount : Nat)
    (args : List (List Char)) : List Char :=
  joinComma (lookupChars uuid :: args.take argsCount)

/-- String.prototype.replace with a global regex: scan left to right; at
a match, emit the callback result and resume after the consumed text; at
a mismatch, keep one character and move on.  The fuel starts at the text
length (every pattern here consumes at least one character per match, so
that is enough steps); pos is the current offset in the original text. -/
def replaceScan (parts : List RePart) (repl : List (List Char) → Nat → List Char) :
    Nat → Nat → List Char → List Char
  | 0, _, text => text
  | _ + 1, _, [] => []
  | fuel + 1, pos, c :: rest =>
      match matchParts parts (c :: rest) with
      | some (caps, remaining) =>
          repl caps pos ++
            replaceScan parts repl fuel
              (pos + ((c :: rest).length - remaining.length)) remaining
      | none => c :: replaceScan parts repl fuel (pos + 1) rest

/-- replaceAssetPath (lines 20-32): builds the pattern and the argument
count for one [uuid, path] entry and rewrites every match of the pattern
in the precompiled text with the callback result. -/
def replaceAssetPath (precompiled : String) (asset : String × String) : String :=
  String.mk
    (replaceScan (getAssetReplaceParts asset.2)
      (fun caps pos =>
        jsCallback asset.1.data (getArgs asset.2).length
          (caps ++ [natToChars pos, precompiled.data]))
      precompiled.data.length 0 precompiled.data)

/-- replaceAssets (lines 34-42): the identity on an empty asset list,
otherwise one replaceAssetPath pass per asset entry, in the given order
(Array.prototype.reduce seeded with the precompiled text). -/
def replaceAssets (precompiled : String) (assets : List (String × String)) :
    String :=
  if assets.isEmpty then precompiled
  else assets.foldl replaceAssetPath precompiled

/-- The separator text that follows a non-final fragment. -/
def sepFor : List RePart → List Char
  | [] => []
  | _ :: _ => [' ', '+', ' ']

/-- An instantiation of a fragment pattern, as the spec describes a
dynamic asset occurrence in the precompiled text: the fragments joined by
" + ", with each wildcard replaced by one concrete argument value. -/
def instParts : List RePart → List (List Char) → Option (List Char)
  | [], [] => some []
  | [], _ :: _ => none
  | .lit s :: ps, vs =>
      (instParts ps vs).map (fun rest => s ++ sepFor ps ++ rest)
  | .wild :: _, [] => none
  | .wild :: ps, v :: vs =>
      (instParts ps vs).map (fun rest => v ++ sepFor ps ++ rest)

/-- Concrete dynamic asset path used in the idempotence counterexample. -/
def cePath : String := "\"a\" + name"

/-- Concrete precompiled text used in the idempotence counterexample. -/
def cePre : String := "\"a\" + \"a\" + b"

/-- The lookup expression inserted by the single rewrite pass of the
idempotence counterexample: the callback output for the one match, whose
capture is the run "\"a\" ". -/
def ceInserted : List Char :=
  jsCallback "u".data 1 ["\"a\" ".data, natToChars 0, cePre.data]

/- ------------------------------------------------------------------ -/
/- Theorems.                                                          -/
/- ------------------------------------------------------------------ -/

/-- String append is associative (stated on the embedding's strings). -/
theorem strAppendAssoc (a b c : String) : a ++ b ++ c = a ++ (b ++ c) := by
  apply String.ext
  simp [String.data_append, List.append_assoc]

/-- A flattened concatenation tree has at least one leaf. -/
theorem leaves_ne_nil : ∀ n : NjNode, leaves n ≠ []
  | .add l r => by
      simp only [leaves, ne_eq, List.append_eq_nil, not_and]
      intro h
      exact absurd h (leaves_ne_nil l)
  | .literal _ => by simp [leaves]
  | .symbol _ => by simp [leaves]
  | .funCall _ _ => by simp [leaves]
  | .other => by simp [leaves]

/-- joinPlusList splits over an append of two nonempty fragment lists. -/
theorem joinPlusList_append :
    ∀ (xs ys : List String), xs ≠ [] → ys ≠ [] →
      joinPlusList (xs ++ ys) =
        joinPlusList xs ++ " + " ++ joinPlusList ys
  | [], _, hx, _ => absurd rfl hx
  | [x], y :: ys, _, _ => by simp [joinPlusList]
  | x :: x' :: xs, ys, _, hy => by
      have ih := joinPlusList_append (x' :: xs) ys (by simp) hy
      show x ++ " + " ++ joinPlusList ((x' :: xs) ++ ys) =
        (x ++ " + " ++ joinPlusList (x' :: xs)) ++ " + " ++ joinPlusList ys
      rw [ih]
      simp only [strAppendAssoc]

/-- On a node whose chain endpoints are all literals or symbols, the map
callback of getAddNodeValue succeeds and produces exactly the flattened
rendering the specification describes. -/
theorem addFragment_ok :
    ∀ n : NjNode, (∀ m ∈ leaves n, goodFragmentNode m = true) →
      addFragment n = .ok (specFlattenRender n)
  | .add l r, h => by
      have hl : ∀ m ∈ leaves l, goodFragmentNode m = true := by
        intro m hm
        exact h m (by simp [leaves, hm])
      have hr : ∀ m ∈ leaves r, goodFragmentNode m = true := by
        intro m hm
        exact h m (by simp [leaves, hm])
      have ihl := addFragment_ok l hl
      have ihr := addFragment_ok r hr
      have hmapl : (leaves l).map fragmentText ≠ [] := by
        simpa using leaves_ne_nil l
      have hmapr : (leaves r).map fragmentText ≠ [] := by
        simpa using leaves_ne_nil r
      have hbody : addFragment (NjNode.add l r) =
          .ok (specFlattenRender l ++ " + " ++ specFlattenRender r) := by
        show (addFragment l).bind
            (fun lv => (addFragment r).bind
              (fun rv => Except.ok (lv ++ " + " ++ rv))) = _
        rw [ihl, ihr]
        rfl
      rw [hbody]
      have hrender : specFlattenRender (NjNode.add l r) =
          specFlattenRender l ++ " + " ++ specFlattenRender r := by
        unfold specFlattenRender
        rw [show leaves (NjNode.add l r) = leaves l ++ leaves r from rfl,
          List.map_append, joinPlusList_append _ _ hmapl hmapr]
      rw [hrender]
  | .literal v, _ => by
      simp [addFragment, specFlattenRender, leaves, fragmentText,
        joinPlusList, pure, Except.pure]
  | .symbol v, _ => by
      simp [addFragment, specFlattenRender, leaves, fragmentText,
        joinPlusList, pure, Except.pure]
  | .funCall nm args, h => by
      have := h (.funCall nm args) (by simp [leaves])
      simp [goodFragmentNode] at this
  | .other, h => by
      have := h .other (by simp [leaves])
      simp [goodFragmentNode] at this

/-- C1: on every concatenation node whose leaves are only string literals
and symbols, getAddNodeValue returns the textual expression obtained by
flattening the concatenation into its ordered fragments and joining them
with " + ", literal fragments wrapped in double quotes, symbol fragments
left unquoted. -/
theorem getAddNodeValue_flattens_good_chains (l r : NjNode)
    (h : ∀ m ∈ leaves (NjNode.add l r), goodFragmentNode m = true) :
    getAddNodeValue (NjNode.add l r) =
      .ok (specFlattenRender (NjNode.add l r)) :=
  addFragment_ok (NjNode.add l r) h

/-- C1 witness: the argument of static("img/" + name + ".png") is
rendered as "img/" + name + ".png". -/
theorem getAddNodeValue_flattens_witness :
    getAddNodeValue
        (NjNode.add (NjNode.add (NjNode.literal "img/") (NjNode.symbol "name"))
          (NjNode.literal ".png")) =
      .ok "\"img/\" + name + \".png\"" := by
  rw [getAddNodeValue_flattens_good_chains
    (NjNode.add (NjNode.literal "img/") (NjNode.symbol "name"))
    (NjNode.literal ".png") (by decide)]
  rfl

/-- The map callback of getAddNodeValue succeeds exactly when every node
of the concatenation chain is an Add, a Literal or a Symbol. -/
theorem addFragment_isOk :
    ∀ n : NjNode,
      exceptIsOk (addFragment n) = (addChain n).all goodFragmentNode
  | .add l r => by
      have ihl := addFragment_isOk l
      have ihr := addFragment_isOk r
      have hchain : addChain (NjNode.add l r) =
          NjNode.add l r :: (addChain l ++ addChain r) := rfl
      have hbody : addFragment (NjNode.add l r) =
          (addFragment l).bind
            (fun lv => (addFragment r).bind
              (fun rv => Except.ok (lv ++ " + " ++ rv))) := rfl
      cases hl : addFragment l with
      | error e =>
          rw [hl] at ihl
          have hall : (addChain l).all goodFragmentNode = false := ihl.symm
          rw [hbody, hl, hchain]
          simp [Except.bind, exceptIsOk, List.all_cons, List.all_append,
            hall, goodFragmentNode]
      | ok lv =>
          rw [hl] at ihl
          have hall1 : (addChain l).all goodFragmentNode = true := ihl.symm
          cases hr : addFragment r with
          | error e =>
              rw [hr] at ihr
              have hall2 : (addChain r).all goodFragmentNode = false :=
                ihr.symm
              rw [hbody, hl, hr, hchain]
              simp [Except.bind, exceptIsOk, List.all_cons, List.all_append,
                hall2, goodFragmentNode]
          | ok rv =>
              rw [hr] at ihr
              have hall2 : (addChain r).all goodFragmentNode = true :=
                ihr.symm
              rw [hbody, hl, hr, hchain]
              simp [Except.bind, exceptIsOk, List.all_cons, List.all_append,
                hall1, hall2, goodFragmentNode]
  | .literal v => by
      simp [addFragment, addChain, exceptIsOk, goodFragmentNode,
        pure, Except.pure]
  | .symbol v => by
      simp [addFragment, addChain, exceptIsOk, goodFragmentNode,
        pure, Except.pure]
  | .funCall nm args => by
      simp [addFragment, addChain, exceptIsOk, goodFragmentNode]
  | .other => by
      simp [addFragment, addChain, exceptIsOk, goodFragmentNode]

/-- C7 (amended): getAddNodeValue succeeds exactly when its argument is a
concatenation node and every node of the concatenation chain is a
concatenation, a string literal or a symbol; in every other case it fails
with a TypeError-kind error. -/
theorem getAddNodeValue_ok_iff_chain_good (n : NjNode) :
    exceptIsOk (getAddNodeValue n) =
      (isAddNode n && (addChain n).all goodFragmentNode) := by
  cases n with
  | add l r =>
      have h := addFragment_isOk (NjNode.add l r)
      simp only [isAddNode, Bool.true_and]
      exact h
  | literal v => simp [getAddNodeValue, exceptIsOk, isAddNode]
  | symbol v => simp [getAddNodeValue, exceptIsOk, isAddNode]
  | funCall nm args => simp [getAddNodeValue, exceptIsOk, isAddNode]
  | other => simp [getAddNodeValue, exceptIsOk, isAddNode]

/-- C7 counterexample: a bare string-literal node makes getAddNodeValue
fail with TypeError("Wrong node type") although every node of its
concatenation chain is a literal, so "fails iff some node in the chain is
neither a nested concatenation, a literal, nor a symbol" is false as
stated for nodes that are not themselves concatenations. -/
theorem getAddNodeValue_literal_input_fails :
    exceptIsOk (getAddNodeValue (NjNode.literal "x")) = false ∧
      (addChain (NjNode.literal "x")).all goodFragmentNode = true := by
  decide

/-- C10: a static() call with an empty argument list makes asset-value
extraction dereference the missing first argument and fail, instead of
treating the call as having no asset value; a call to any other global
with no arguments is simply ignored (undefined). -/
theorem getGlobalFnValue_static_no_args_fails :
    getGlobalFnValue (NjNode.funCall (NjNode.symbol "static") []) =
        .error "TypeError: Cannot read properties of undefined" ∧
      getGlobalFnValue (NjNode.funCall (NjNode.symbol "other") []) =
        .ok none := by
  constructor
  · rfl
  · rfl

/-- C6: replaceAssets applied with an empty asset-entry list returns the
precompiled text unchanged. -/
theorem replaceAssets_nil_id (precompiled : String) :
    replaceAssets precompiled [] = precompiled := rfl

/-- Concatenating the filter for p with the filter for a disjoint q is a
permutation of the single filter for their disjunction. -/
theorem filter_or_perm {α : Type} (p q : α → Bool)
    (hdisj : ∀ x, p x = true → q x = false) :
    ∀ l : List α,
      List.Perm (l.filter p ++ l.filter q) (l.filter (fun x => p x || q x))
  | [] => by simp
  | c :: l => by
      have ih := filter_or_perm p q hdisj l
      cases hp : p c with
      | true =>
          have hq : q c = false := hdisj c hp
          simp only [List.filter_cons, hp, hq, Bool.true_or, if_true,
            List.cons_append]
          exact ih.cons c
      | false =>
          cases hq : q c with
          | true =>
              simp only [List.filter_cons, hp, hq, Bool.false_or, if_true,
                if_false]
              exact List.perm_middle.trans (ih.cons c)
          | false =>
              simp only [List.filter_cons, hp, hq, Bool.false_or, if_false]
              exact ih

/-- For a directive kind that is one of the four inclusion kinds, the
document-order extraction restricted to that kind is just the template
names of its findAll nodes. -/
theorem specDocOrderDeps_findAll (nodes : List TplNode) (k : DirKind)
    (hk : ∀ n : TplNode, n.kind = k → isInclusionDir n = true) :
    specDocOrderDeps (findAll k nodes) =
      (findAll k nodes).map (fun n => n.template) := by
  unfold specDocOrderDeps
  congr 1
  apply List.filter_eq_self.mpr
  intro n hn
  simp only [findAll, List.mem_filter] at hn
  exact hk n (eq_of_beq hn.2)

/-- C3 (amended): inclusion-reference extraction returns the template
names of all extends, include, import and from-import directives with
duplicates preserved, grouped by directive kind in the fixed order
extends, include, import, from-import, each group in document order; the
whole result is a permutation of the document-order name list but not, in
general, itself in document order. -/
theorem getDependencies_grouped_by_kind (nodes : List TplNode) :
    List.Perm (getDependencies nodes) (specDocOrderDeps nodes) ∧
      getDependencies nodes =
        specDocOrderDeps (findAll .kExtends nodes) ++
          specDocOrderDeps (findAll .kInclude nodes) ++
          specDocOrderDeps (findAll .kImport nodes) ++
          specDocOrderDeps (findAll .kFromImport nodes) := by
  have hk1 : ∀ n : TplNode, n.kind = DirKind.kExtends →
      isInclusionDir n = true := by
    intro n h
    simp [isInclusionDir, h]
  have hk2 : ∀ n : TplNode, n.kind = DirKind.kInclude →
      isInclusionDir n = true := by
    intro n h
    simp [isInclusionDir, h]
  have hk3 : ∀ n : TplNode, n.kind = DirKind.kImport →
      isInclusionDir n = true := by
    intro n h
    simp [isInclusionDir, h]
  have hk4 : ∀ n : TplNode, n.kind = DirKind.kFromImport →
      isInclusionDir n = true := by
    intro n h
    simp [isInclusionDir, h]
  constructor
  · have h34 := filter_or_perm (fun n : TplNode => n.kind == DirKind.kImport)
      (fun n : TplNode => n.kind == DirKind.kFromImport)
      (by
        intro x h
        have h2 : (x.kind == DirKind.kImport) = true := h
        show (x.kind == DirKind.kFromImport) = false
        rw [eq_of_beq h2]
        decide)
      nodes
    have h234 := filter_or_perm (fun n : TplNode => n.kind == DirKind.kInclude)
      (fun n : TplNode =>
        n.kind == DirKind.kImport || n.kind == DirKind.kFromImport)
      (by
        intro x h
        have h2 : (x.kind == DirKind.kInclude) = true := h
        show (x.kind == DirKind.kImport || x.kind == DirKind.kFromImport) =
          false
        rw [eq_of_beq h2]
        decide)
      nodes
    have h1234 := filter_or_perm (fun n : TplNode => n.kind == DirKind.kExtends)
      (fun n : TplNode =>
        n.kind == DirKind.kInclude ||
          (n.kind == DirKind.kImport || n.kind == DirKind.kFromImport))
      (by
        intro x h
        have h2 : (x.kind == DirKind.kExtends) = true := h
        show (x.kind == DirKind.kInclude ||
          (x.kind == DirKind.kImport || x.kind == DirKind.kFromImport)) = false
        rw [eq_of_beq h2]
        decide)
      nodes
    have hnodes :
        List.Perm
          (findAll .kExtends nodes ++ findAll .kInclude nodes ++
            findAll .kImport nodes ++ findAll .kFromImport nodes)
          (nodes.filter isInclusionDir) := by
      have step1 :
          List.Perm
            (findAll .kExtends nodes ++ findAll .kInclude nodes ++
              findAll .kImport nodes ++ findAll .kFromImport nodes)
            (findAll .kExtends nodes ++
              (findAll .kInclude nodes ++
                (findAll .kImport nodes ++ findAll .kFromImport nodes))) := by
        simp [List.append_assoc]
      have step2 :
          List.Perm
            (findAll .kExtends nodes ++
              (findAll .kInclude nodes ++
                (findAll .kImport nodes ++ findAll .kFromImport nodes)))
            (findAll .kExtends nodes ++
              (findAll .kInclude nodes ++
                nodes.filter (fun n =>
                  n.kind == DirKind.kImport ||
                    n.kind == DirKind.kFromImport))) :=
        List.Perm.append_left _ (List.Perm.append_left _ h34)
      have step3 :
          List.Perm
            (findAll .kExtends nodes ++
              (findAll .kInclude nodes ++
                nodes.filter (fun n =>
                  n.kind == DirKind.kImport ||
                    n.kind == DirKind.kFromImport)))
            (findAll .kExtends nodes ++
              nodes.filter (fun n =>
                n.kind == DirKind.kInclude ||
                  (n.kind == DirKind.kImport ||
                    n.kind == DirKind.kFromImport))) :=
        List.Perm.append_left _ h234
      have step4 :
          List.Perm
            (findAll .kExtends nodes ++
              nodes.filter (fun n =>
                n.kind == DirKind.kInclude ||
                  (n.kind == DirKind.kImport ||
                    n.kind == DirKind.kFromImport)))
            (nodes.filter (fun n =>
              n.kind == DirKind.kExtends ||
                (n.kind == DirKind.kInclude ||
                  (n.kind == DirKind.kImport ||
                    n.kind == DirKind.kFromImport)))) := h1234
      have hpred :
          nodes.filter (fun n =>
            n.kind == DirKind.kExtends ||
              (n.kind == DirKind.kInclude ||
                (n.kind == DirKind.kImport ||
                  n.kind == DirKind.kFromImport))) =
            nodes.filter isInclusionDir := by
        apply List.filter_congr
        intro n _
        simp [isInclusionDir, Bool.or_assoc]
      exact ((step1.trans step2).trans (step3.trans step4)).trans
        (hpred ▸ List.Perm.refl _)
    exact hnodes.map (fun n => n.template)
  · rw [specDocOrderDeps_findAll nodes _ hk1,
      specDocOrderDeps_findAll nodes _ hk2,
      specDocOrderDeps_findAll nodes _ hk3,
      specDocOrderDeps_findAll nodes _ hk4]
    unfold getDependencies
    simp [List.map_append]

/-- C3 counterexample: with an include directive appearing before an
extends directive, getDependencies lists the extends name first, so the
result is not the document-order name list. -/
theorem getDependencies_not_doc_order :
    getDependencies
        [TplNode.mk DirKind.kInclude "b", TplNode.mk DirKind.kExtends "a"] ≠
      specDocOrderDeps
        [TplNode.mk DirKind.kInclude "b", TplNode.mk DirKind.kExtends "a"] := by
  decide

/-- jsFilterIdx only depends on the pointwise behaviour of its callback. -/
theorem jsFilterIdx_congr (P Q : String → Nat → Bool)
    (h : ∀ a i, P a i = Q a i) :
    ∀ (l : List String) (i : Nat), jsFilterIdx P l i = jsFilterIdx Q l i
  | [], _ => rfl
  | a :: l, i => by
      simp only [jsFilterIdx, h]
      rw [jsFilterIdx_congr P Q h l (i + 1)]

/-- Starting jsFilterIdx one index later is the same as shifting the
callback by one. -/
theorem jsFilterIdx_shift (Q R : String → Nat → Bool)
    (h : ∀ a i, Q a (i + 1) = R a i) :
    ∀ (m : List String) (k : Nat),
      jsFilterIdx Q m (k + 1) = jsFilterIdx R m k
  | [], _ => rfl
  | a :: m, k => by
      simp only [jsFilterIdx, h]
      rw [jsFilterIdx_shift Q R h m (k + 1)]

/-- Nat equality tests agree on successors. -/
theorem natBeqSucc (x y : Nat) : (x + 1 == y + 1) = (x == y) := by
  by_cases h : x = y
  · subst h
    simp
  · rw [beq_eq_false_iff_ne.mpr h,
      beq_eq_false_iff_ne.mpr (by omega : x + 1 ≠ y + 1)]

/-- Filtering a list on "the element sits at the index of its own first
occurrence" (restricted to elements satisfying P) keeps exactly the first
occurrence of each distinct P-element, in order. -/
theorem jsFilterIdx_indexOf :
    ∀ (l : List String) (P : String → Bool),
      jsFilterIdx (fun a i => P a && (l.indexOf a == i)) l 0 =
        specDedupKeepFirst (l.filter P)
  | [], P => by simp [jsFilterIdx, specDedupKeepFirst]
  | c :: m, P => by
      have hshift :
          jsFilterIdx (fun a i => P a && ((c :: m).indexOf a == i)) m 1 =
            jsFilterIdx (fun a i => (P a && !(a == c)) && (m.indexOf a == i))
              m 0 := by
        apply jsFilterIdx_shift
        intro a i
        cases hac : a == c with
        | true =>
            have : a = c := eq_of_beq hac
            subst this
            simp [List.indexOf_cons_self]
        | false =>
            have hne : a ≠ c := ne_of_beq_false hac
            rw [List.indexOf_cons_ne m (Ne.symm hne),
              Nat.succ_eq_add_one, natBeqSucc]
            simp [hac]
      have ih := jsFilterIdx_indexOf m (fun a => P a && !(a == c))
      have hself : ((c :: m).indexOf c == 0) = true := by
        simp [List.indexOf_cons_self]
      cases hPc : P c with
      | true =>
          have hstep :
              jsFilterIdx (fun a i => P a && ((c :: m).indexOf a == i))
                  (c :: m) 0 =
                c :: jsFilterIdx
                  (fun a i => P a && ((c :: m).indexOf a == i)) m 1 := by
            simp [jsFilterIdx, hself, hPc]
          rw [hstep, hshift, ih]
          have hfil : (c :: m).filter P = c :: m.filter P := by
            simp [List.filter_cons, hPc]
          rw [hfil]
          have hded : specDedupKeepFirst (c :: m.filter P) =
              c :: specDedupKeepFirst
                ((m.filter P).filter (fun b => !(b == c))) := by
            simp [specDedupKeepFirst]
          rw [hded, List.filter_filter]
          have hcomm : (fun a : String => P a && !(a == c)) =
              (fun a => !(a == c) && P a) := by
            funext a
            rw [Bool.and_comm]
          rw [hcomm]
      | false =>
          have hstep :
              jsFilterIdx (fun a i => P a && ((c :: m).indexOf a == i))
                  (c :: m) 0 =
                jsFilterIdx
                  (fun a i => P a && ((c :: m).indexOf a == i)) m 1 := by
            simp [jsFilterIdx, hPc]
          rw [hstep, hshift, ih]
          have hfil : (c :: m).filter P = m.filter P := by
            simp [List.filter_cons, hPc]
          rw [hfil]
          have hPeq : ∀ b ∈ m, (P b && !(b == c)) = P b := by
            intro b _
            cases hPb : P b with
            | true =>
                cases hbc : b == c with
                | true =>
                    have : b = c := eq_of_beq hbc
                    subst this
                    rw [hPb] at hPc
                    exact absurd hPc (by simp)
                | false => rfl
            | false => rfl
          rw [List.filter_congr hPeq]

/-- Element counts in the spec-side dedup: each member of the input
appears exactly once, everything else not at all (fuel-based recursion on
the list length). -/
theorem specDedupCountFuel :
    ∀ (n : Nat) (l : List String), l.length ≤ n →
      ∀ a, (specDedupKeepFirst l).count a = if a ∈ l then 1 else 0
  | _, [], _, a => by simp [specDedupKeepFirst]
  | 0, c :: m, h, a => absurd h (by simp)
  | n + 1, c :: m, h, a => by
      have hlen : (m.filter (fun b => !(b == c))).length ≤ n :=
        le_trans (List.length_filter_le _ _) (Nat.le_of_succ_le_succ h)
      have ih := specDedupCountFuel n (m.filter (fun b => !(b == c))) hlen a
      have hded : specDedupKeepFirst (c :: m) =
          c :: specDedupKeepFirst (m.filter (fun b => !(b == c))) := by
        simp [specDedupKeepFirst]
      rw [hded]
      by_cases hac : a = c
      · subst hac
        have hnotmem : a ∉ m.filter (fun b => !(b == a)) := by
          simp [List.mem_filter]
        rw [if_neg hnotmem] at ih
        simp [List.count_cons_self, ih, List.mem_cons]
      · by_cases ham : a ∈ m
        · have h1 : a ∈ m.filter (fun b => !(b == c)) :=
            List.mem_filter.mpr ⟨ham, by simp [beq_eq_false_iff_ne.mpr hac]⟩
          rw [if_pos h1] at ih
          simp [List.count_cons_of_ne hac, ih, List.mem_cons, hac, ham]
        · have h1 : a ∉ m.filter (fun b => !(b == c)) :=
            fun hx => ham (List.mem_filter.mp hx).1
          rw [if_neg h1] at ih
          simp [List.count_cons_of_ne hac, ih, List.mem_cons, hac, ham]

/-- C4: the asset list passed to resolution (assets.filter(isUnique))
keeps exactly the first occurrence of each distinct extracted path text:
it equals the spec-side first-occurrence dedup, and each path text of the
input appears in it exactly once. -/
theorem assetsDedup_unique_first (l : List String) :
    assetsDedup l = specDedupKeepFirst l ∧
      ∀ a, (assetsDedup l).count a = if a ∈ l then 1 else 0 := by
  have h1 : assetsDedup l = specDedupKeepFirst l := by
    unfold assetsDedup
    have hcong :
        jsFilterIdx (fun a i => isUnique a i l) l 0 =
          jsFilterIdx
            (fun a i => (fun _ : String => true) a && (l.indexOf a == i))
            l 0 :=
      jsFilterIdx_congr _ _ (by intro a i; simp [isUnique]) l 0
    rw [hcong, jsFilterIdx_indexOf]
    congr 1
    simp
  refine ⟨h1, ?_⟩
  intro a
  rw [h1]
  exact specDedupCountFuel l.length l (le_refl _) a

/-- C8: a declared extension descriptor is retained by extension-usage
extraction exactly when some custom-tag call-extension node matches it by
its declared name or by its live instance, and (the declared descriptors
being distinct, as entries of a name-keyed mapping are) each retained
descriptor appears at most once in the result. -/
theorem extensionsUsages_retained_iff (callSites : List ExtRef)
    (decls : List ExtDescriptor) (d : ExtDescriptor)
    (hnd : decls.Nodup) :
    (d ∈ extensionsUsages callSites decls ↔
      d ∈ decls ∧ ∃ e ∈ callSites, extSiteMatches e d = true) ∧
      (extensionsUsages callSites decls).count d ≤ 1 := by
  constructor
  · unfold extensionsUsages getUsagesOf
    rw [List.mem_filter]
    simp [List.any_eq_true]
  · have hnodup : (extensionsUsages callSites decls).Nodup :=
      hnd.filter _
    exact List.nodup_iff_count_le_one.mp hnodup d

/-- C8 witness: a descriptor referenced through its live instance handle
is retained, once, even though the call site does not carry its name. -/
theorem extensionsUsages_retained_iff_witness :
    (ExtDescriptor.mk "style" "./style" 7 ∈
        extensionsUsages [ExtRef.byInstance 7]
          [ExtDescriptor.mk "style" "./style" 7]) ∧
      (extensionsUsages [ExtRef.byInstance 7]
          [ExtDescriptor.mk "style" "./style" 7]).count
        (ExtDescriptor.mk "style" "./style" 7) ≤ 1 := by
  have h := extensionsUsages_retained_iff [ExtRef.byInstance 7]
    [ExtDescriptor.mk "style" "./style" 7]
    (ExtDescriptor.mk "style" "./style" 7) (by simp)
  refine ⟨h.1.mpr ⟨by simp, ExtRef.byInstance 7, by simp, by decide⟩, h.2⟩

/-- C9: when no candidate path of a reference exists, per-reference
resolution fails with an error message that names the missing logical
reference and states whether it was a template or an asset. -/
theorem resolveDep_not_found_messages (fsExists : String → Bool)
    (name : String) (paths : List String)
    (h : ∀ p ∈ paths, fsExists p = false) :
    resolveTemplateDep fsExists (name, paths) =
        .error ("Template \"" ++ name ++ "\" not found") ∧
      resolveAssetDep fsExists (name, paths) =
        .error ("Asset \"" ++ name ++ "\" not found") := by
  have hfind : paths.find? fsExists = none := by
    apply List.find?_eq_none.mpr
    intro x hx
    simp [h x hx]
  constructor
  · simp [resolveTemplateDep, getFirstExistedPath, hfind]
  · simp [resolveAssetDep, getFirstExistedPath, hfind]

/-- C9 witness: a template reference "a" with two candidate paths, none
existing, fails with the message naming "a" as a template. -/
theorem resolveDep_not_found_witness :
    resolveTemplateDep (fun _ => false) ("a", ["d1/a", "d2/a"]) =
      .error "Template \"a\" not found" := by
  rw [(resolveDep_not_found_messages (fun _ => false) "a" ["d1/a", "d2/a"]
    (by intro p _; rfl)).1]
  rfl

/-- A global replace with a pattern that matches nowhere in the text
returns the text unchanged, whatever the fuel and offset. -/
theorem replaceScan_no_match (parts : List RePart)
    (repl : List (List Char) → Nat → List Char) :
    ∀ text : List Char, hasMatch parts text = false →
      ∀ fuel pos : Nat, replaceScan parts repl fuel pos text = text
  | [], _, fuel, _ => by cases fuel <;> rfl
  | c :: rest, h, fuel, pos => by
      have hsplit : (matchParts parts (c :: rest)).isSome = false ∧
          hasMatch parts rest = false := by
        simpa [hasMatch] using h
      have hnone : matchParts parts (c :: rest) = none := by
        cases hm : matchParts parts (c :: rest) with
        | none => rfl
        | some pr =>
            rw [hm] at hsplit
            exact absurd hsplit.1 (by simp)
      cases fuel with
      | zero => rfl
      | succ f =>
          simp only [replaceScan, hnone]
          rw [replaceScan_no_match parts repl rest hsplit.2 f (pos + 1)]

/-- One rewrite pass with a pattern that matches nowhere in the
precompiled text is the identity. -/
theorem replaceAssetPath_no_match (precompiled : String)
    (asset : String × String)
    (h : hasMatch (getAssetReplaceParts asset.2) precompiled.data = false) :
    replaceAssetPath precompiled asset = precompiled := by
  cases precompiled with
  | mk l =>
      unfold replaceAssetPath
      rw [replaceScan_no_match _ _ _ h _ _]

/-- Folding rewrite passes over asset entries none of whose patterns
match the text leaves the text unchanged. -/
theorem foldl_replaceAssetPath_no_match (out : String) :
    ∀ l : List (String × String),
      (∀ a ∈ l, hasMatch (getAssetReplaceParts a.2) out.data = false) →
      l.foldl replaceAssetPath out = out
  | [], _ => rfl
  | a :: as, h => by
      rw [List.foldl_cons, replaceAssetPath_no_match out a (h a (by simp))]
      exact foldl_replaceAssetPath_no_match out as
        (fun b hb => h b (by simp [hb]))

/-- C5 (amended): applying replaceAssets twice with the same asset list
yields the same output as applying it once, provided no entry's
replacement pattern matches anywhere in the once-rewritten text (which is
the intent of "the inserted lookup expressions no longer match the
replacement patterns", but must be required of the whole rewritten text:
a pattern may also match across the boundary between an inserted lookup
expression and the surrounding text, see the counterexample). -/
theorem replaceAssets_idem (precompiled : String)
    (assets : List (String × String))
    (h : ∀ a ∈ assets,
      hasMatch (getAssetReplaceParts a.2)
        (replaceAssets precompiled assets).data = false) :
    replaceAssets (replaceAssets precompiled assets) assets =
      replaceAssets precompiled assets := by
  cases assets with
  | nil => rfl
  | cons a as =>
      have hunfold :
          replaceAssets (replaceAssets precompiled (a :: as)) (a :: as) =
            (a :: as).foldl replaceAssetPath
              (replaceAssets precompiled (a :: as)) := by
        simp [replaceAssets]
      rw [hunfold]
      exact foldl_replaceAssetPath_no_match _ _ h

/-- C5 witness for the amended theorem: a static asset path absent from
the precompiled text; both passes are the identity. -/
theorem replaceAssets_idem_witness :
    replaceAssets (replaceAssets "x" [("u", "a")]) [("u", "a")] =
      replaceAssets "x" [("u", "a")] :=
  replaceAssets_idem "x" [("u", "a")] (by decide)

/-- C5 counterexample: for the dynamic path "a" + name applied to the
text "a" + "a" + b, the single pass captures the argument text "a" and
inserts _templateAssets['u'],"a" followed by the untouched + b; the
inserted lookup expression itself matches the pattern nowhere, yet the
second pass matches across the boundary of the inserted text ("a" + b)
and rewrites again, so rewriting is not idempotent as stated. -/
theorem replaceAssets_not_idem_counterexample :
    ([("u", cePath)] ≠ ([] : List (String × String))) ∧
      hasMatch (getAssetReplaceParts cePath) ceInserted = false ∧
      replaceAssets cePre [("u", cePath)] =
        String.mk (ceInserted ++ "+ b".data) ∧
      replaceAssets (replaceAssets cePre [("u", cePath)]) [("u", cePath)] ≠
        replaceAssets cePre [("u", cePath)] := by
  refine ⟨by simp, by decide, by decide, by decide⟩

/-- Stripping a sequence off a text that starts with it succeeds with the
remainder. -/
theorem stripPfx_append : ∀ (s r : List Char), stripPfx s (s ++ r) = some r
  | [], _ => rfl
  | c :: cs, r => by simp [stripPfx, stripPfx_append cs r]

/-- takeWhile/dropWhile on a text made of a satisfying run, a failing
character and a tail split exactly at that character. -/
theorem takeWhile_append_stop (p : Char → Bool) :
    ∀ (l z : List Char) (x : Char), (∀ c ∈ l, p c = true) → p x = false →
      (l ++ x :: z).takeWhile p = l ∧ (l ++ x :: z).dropWhile p = x :: z
  | [], z, x, _, hx => by
      simp [List.takeWhile_cons, List.dropWhile_cons, hx]
  | c :: l, z, x, h, hx => by
      have hc : p c = true := h c (by simp)
      have ih := takeWhile_append_stop p l z x
        (fun d hd => h d (by simp [hd])) hx
      simp [List.takeWhile_cons, List.dropWhile_cons, hc, ih.1, ih.2]

/-- takeWhile/dropWhile on a text satisfying the predicate throughout. -/
theorem takeWhile_all (p : Char → Bool) :
    ∀ l : List Char, (∀ c ∈ l, p c = true) →
      l.takeWhile p = l ∧ l.dropWhile p = []
  | [], _ => by simp
  | c :: l, h => by
      have hc : p c = true := h c (by simp)
      have ih := takeWhile_all p l (fun d hd => h d (by simp [hd]))
      simp [List.takeWhile_cons, List.dropWhile_cons, hc, ih.1, ih.2]

/-- Matching an instantiated pattern: on the text built from the pattern
by filling each wildcard with a nonempty plus-free argument value, the
matcher consumes the whole text, captures exactly those values in order,
and literal fragments match their text verbatim. -/
theorem instParts_matchParts :
    ∀ (parts : List RePart) (vs : List (List Char)) (text : List Char),
      instParts parts vs = some text →
      (∀ v ∈ vs, v ≠ [] ∧ ∀ c ∈ v, (c == '+') = false) →
      matchParts parts text = some (vs, [])
  | [], vs, text, hinst, _ => by
      cases vs with
      | nil =>
          simp only [instParts, Option.some.injEq] at hinst
          subst hinst
          rfl
      | cons v vs => simp [instParts] at hinst
  | .lit s :: ps, vs, text, hinst, hvals => by
      simp only [instParts] at hinst
      cases hrest : instParts ps vs with
      | none => rw [hrest] at hinst; simp at hinst
      | some rest =>
          rw [hrest] at hinst
          simp only [Option.map_some', Option.some.injEq] at hinst
          cases ps with
          | nil =>
              cases vs with
              | cons v vs' => simp [instParts] at hrest
              | nil =>
                  have hrest0 : rest = [] := by
                    simp only [instParts, Option.some.injEq] at hrest
                    exact hrest.symm
                  subst hrest0
                  have htext : text = s := by
                    rw [← hinst]
                    simp [sepFor]
                  rw [htext]
                  have hstrip := stripPfx_append s []
                  rw [List.append_nil] at hstrip
                  simp [matchParts, hstrip]
          | cons p ps' =>
              have ih := instParts_matchParts (p :: ps') vs rest hrest hvals
              have htext : text = s ++ ([' ', '+', ' '] ++ rest) := by
                rw [← hinst]
                simp [sepFor, List.append_assoc]
              subst htext
              simp only [matchParts, stripPfx_append]
              exact ih
  | .wild :: ps, vs, text, hinst, hvals => by
      cases vs with
      | nil => simp [instParts] at hinst
      | cons v vs' =>
          simp only [instParts] at hinst
          cases hrest : instParts ps vs' with
          | none => rw [hrest] at hinst; simp at hinst
          | some rest =>
              rw [hrest] at hinst
              simp only [Option.map_some', Option.some.injEq] at hinst
              have hv := hvals v (by simp)
              have hvchars : ∀ c ∈ v, (fun c => c != '+') c = true := by
                intro c hc
                simp [bne, (hv.2 c hc)]
              have hvals' : ∀ w ∈ vs', w ≠ [] ∧
                  ∀ c ∈ w, (c == '+') = false := by
                intro w hw
                exact hvals w (by simp [hw])
              cases ps with
              | nil =>
                  cases vs' with
                  | cons w ws => simp [instParts] at hrest
                  | nil =>
                      have hrest0 : rest = [] := by
                        simp only [instParts, Option.some.injEq] at hrest
                        exact hrest.symm
                      subst hrest0
                      have htext : text = v := by
                        rw [← hinst]
                        simp [sepFor]
                      rw [htext]
                      have htw := takeWhile_all (fun c => c != '+') v hvchars
                      simp only [matchParts, htw.1, htw.2]
                      cases hv0 : v with
                      | nil => exact absurd hv0 hv.1
                      | cons c0 run => simp
              | cons p ps' =>
                  have ih := instParts_matchParts (p :: ps') vs' rest
                    hrest hvals'
                  have htext : text = (v ++ [' ']) ++ '+' :: ' ' :: rest := by
                    rw [← hinst]
                    simp [sepFor, List.append_assoc]
                  subst htext
                  have hruns : ∀ c ∈ v ++ [' '],
                      (fun c => c != '+') c = true := by
                    intro c hc
                    rcases List.mem_append.mp hc with h1 | h1
                    · exact hvchars c h1
                    · simp only [List.mem_singleton] at h1
                      subst h1
                      rfl
                  have hsplit := takeWhile_append_stop (fun c => c != '+')
                    (v ++ [' ']) (' ' :: rest) '+' hruns (by rfl)
                  have hrevne : v.reverse ≠ [] := by
                    simpa using hv.1
                  obtain ⟨c, capRev, hrev⟩ :=
                    List.exists_cons_of_ne_nil hrevne
                  have hrevfull : ((v ++ [' ']).reverse) = ' ' :: c :: capRev := by
                    rw [List.reverse_append, hrev]
                    rfl
                  simp only [matchParts, hsplit.1, hsplit.2, hrevfull, ih,
                    Option.map_some']
                  have hback : (c :: capRev).reverse = v := by
                    rw [← hrev, List.reverse_reverse]
                  rw [hback]

/-- The number of argument values an instantiation consumes equals the
number of unquoted fragments of the path. -/
theorem instParts_length_args :
    ∀ (frags : List (List Char)) (vs : List (List Char)) (text : List Char),
      instParts (frags.map (fun f =>
          if f.head? == some '"' then RePart.lit f else RePart.wild)) vs =
        some text →
      vs.length = (frags.filter (fun f => !(f.head? == some '"'))).length
  | [], vs, text, h => by
      cases vs with
      | nil => simp
      | cons v vs => simp [instParts] at h
  | f :: fs, vs, text, h => by
      cases hf : (f.head? == some '"') with
      | true =>
          rw [List.map_cons, if_pos hf] at h
          simp only [instParts] at h
          cases hrest : instParts (fs.map (fun f =>
              if f.head? == some '"' then RePart.lit f else RePart.wild)) vs with
          | none => rw [hrest] at h; simp at h
          | some rest =>
              have ih := instParts_length_args fs vs rest hrest
              simp [List.filter_cons, hf, ih]
      | false =>
          rw [List.map_cons, if_neg (by simp [hf])] at h
          cases vs with
          | nil => simp [instParts] at h
          | cons v vs' =>
              simp only [instParts] at h
              cases hrest : instParts (fs.map (fun f =>
                  if f.head? == some '"' then RePart.lit f else RePart.wild))
                  vs' with
              | none => rw [hrest] at h; simp at h
              | some rest =>
                  have ih := instParts_length_args fs vs' rest hrest
                  simp [List.filter_cons, hf, ih]

/-- splitSep always produces at least one fragment. -/
theorem splitSep_ne_nil (l : List Char) : splitSep l ≠ [] := by
  rw [splitSep.eq_def]
  split
  · simp
  · simp
  · split <;> simp

/-- A dynamic path's pattern has at least two fragments. -/
theorem getAssetReplaceParts_len_two (path : String)
    (hdyn : isDynamicPath path = true) :
    ∃ p1 p2 ps, getAssetReplaceParts path = p1 :: p2 :: ps := by
  unfold getAssetReplaceParts
  rw [if_pos hdyn]
  unfold isDynamicPath at hdyn
  cases hsp : splitSep path.data with
  | nil => exact absurd hsp (splitSep_ne_nil _)
  | cons f fs =>
      cases fs with
      | nil =>
          rw [hsp] at hdyn
          simp at hdyn
      | cons f2 fs2 =>
          refine ⟨(if f.head? == some '"' then RePart.lit f else RePart.wild),
            (if f2.head? == some '"' then RePart.lit f2 else RePart.wild),
            fs2.map (fun f =>
              if f.head? == some '"' then RePart.lit f else RePart.wild),
            by simp⟩

/-- An instantiation of a pattern with at least two fragments contains
the separator, hence is nonempty. -/
theorem instParts_two_ne_nil :
    ∀ (p1 p2 : RePart) (ps : List RePart) (vs : List (List Char))
      (text : List Char),
      instParts (p1 :: p2 :: ps) vs = some text → text ≠ []
  | .lit s, p2, ps, vs, text, h => by
      simp only [instParts] at h
      cases hrest : instParts (p2 :: ps) vs with
      | none => rw [hrest] at h; simp at h
      | some rest =>
          rw [hrest] at h
          simp only [Option.map_some', Option.some.injEq] at h
          rw [← h]
          simp [sepFor]
  | .wild, p2, ps, vs, text, h => by
      cases vs with
      | nil => simp [instParts] at h
      | cons v vs' =>
          simp only [instParts] at h
          cases hrest : instParts (p2 :: ps) vs' with
          | none => rw [hrest] at h; simp at h
          | some rest =>
              rw [hrest] at h
              simp only [Option.map_some', Option.some.injEq] at h
              rw [← h]
              simp [sepFor]

/-- A global replace over the empty text is empty. -/
theorem replaceScan_nil (parts : List RePart)
    (repl : List (List Char) → Nat → List Char) :
    ∀ fuel pos : Nat, replaceScan parts repl fuel pos [] = [] := by
  intro fuel pos
  cases fuel <;> rfl

/-- C2: for a dynamic asset entry applied to an occurrence of its own
pattern (the fragments joined by " + " with each variable fragment
replaced by a nonempty plus-free argument text), the rewriter matches the
occurrence — literal fragments verbatim, each variable fragment capturing
exactly one argument — and replaces it with the runtime-table lookup
keyed by the entry's id followed by the captured argument values in their
original left-to-right order; the trailing offset and whole-string
entries of the callback's argument list (beyond the known argument
count) are discarded. -/
theorem replaceAssetPath_dynamic_rewrites (uuid path : String)
    (vs : List (List Char)) (text : List Char)
    (hdyn : isDynamicPath path = true)
    (hinst : instParts (getAssetReplaceParts path) vs = some text)
    (hvals : ∀ v ∈ vs, v ≠ [] ∧ ∀ c ∈ v, (c == '+') = false) :
    replaceAssetPath (String.mk text) (uuid, path) =
      String.mk (joinComma (lookupChars uuid.data :: vs)) := by
  obtain ⟨p1, p2, ps, hparts⟩ := getAssetReplaceParts_len_two path hdyn
  have htextne : text ≠ [] :=
    instParts_two_ne_nil p1 p2 ps vs text (hparts ▸ hinst)
  have hmatch : matchParts (getAssetReplaceParts path) text =
      some (vs, []) :=
    instParts_matchParts _ vs text hinst hvals
  have hlen : vs.length = (getArgs path).length := by
    have hinst2 : instParts ((splitSep path.data).map (fun f =>
        if f.head? == some '"' then RePart.lit f else RePart.wild)) vs =
          some text := by
      rw [show (splitSep path.data).map (fun f =>
          if f.head? == some '"' then RePart.lit f else RePart.wild) =
            getAssetReplaceParts path from by
        unfold getAssetReplaceParts
        rw [if_pos hdyn]]
      exact hinst
    have hl := instParts_length_args (splitSep path.data) vs text hinst2
    unfold getArgs
    rw [if_pos hdyn]
    exact hl
  obtain ⟨c, r, hcr⟩ := List.exists_cons_of_ne_nil htextne
  subst hcr
  show String.mk (replaceScan (getAssetReplaceParts path)
      (fun caps pos => jsCallback uuid.data (getArgs path).length
        (caps ++ [natToChars pos, c :: r]))
      (c :: r).length 0 (c :: r)) =
    String.mk (joinComma (lookupChars uuid.data :: vs))
  have hscan : replaceScan (getAssetReplaceParts path)
      (fun caps pos => jsCallback uuid.data (getArgs path).length
        (caps ++ [natToChars pos, c :: r]))
      (c :: r).length 0 (c :: r) =
        jsCallback uuid.data (getArgs path).length
          (vs ++ [natToChars 0, c :: r]) := by
    rw [show (c :: r).length = r.length + 1 from rfl]
    simp only [replaceScan]
    rw [hmatch]
    simp only [replaceScan_nil]
    simp
  rw [hscan]
  unfold jsCallback
  rw [List.take_left' hlen]

/-- C2 witness: the entry ("u", "img/" + name + ".png") applied to the
occurrence "img/" + x + ".png" rewrites it to the lookup for id u
followed by the captured argument x. -/
theorem replaceAssetPath_dynamic_witness :
    replaceAssetPath (String.mk "\"img/\" + x + \".png\"".data)
        ("u", "\"img/\" + name + \".png\"") =
      String.mk (joinComma (lookupChars "u".data :: ["x".data])) :=
  replaceAssetPath_dynamic_rewrites "u" "\"img/\" + name + \".png\""
    ["x".data] "\"img/\" + x + \".png\"".data
    (by decide) (by decide) (by decide)
